import Mathlib

/-!
Verification development for the `edist` repository.

Part 1 models the dynamic-time-warping (DTW) module (`dtw.pyx`): `dtw`,
`dtw_numeric`, the shared DP kernel `dtw_c` and `dtw_backtrace`.  Floating
point numbers are embedded as exact rationals.

Part 2 models the tree-edit-distance engine (Zhang-Shasha forest-distance
DP with a deterministic backtrace) and the atomic tree edits.  The Python
modules `edist.ted` and `edist.tree_edits` are not part of the provided
sources (only the demonstration notebook that calls them is), so those
definitions are modelled from the specification, as indicated by their
doc comments.
-/

namespace Edist

/-! ### DTW: the DP kernel `dtw_c` and the distance wrappers -/

/-- Source `min3(a, b, c)` from `dtw.pyx`: the minimum of three doubles,
computed with the same comparison structure as the Cython code. -/
def min3 (a b c : ℚ) : ℚ :=
  if a < b then (if a < c then a else c)
  else (if b < c then b else c)

/-- Source `dtw_c(Delta, D)` from `dtw.pyx`.  The Cython routine fills the
matrix `D` from the bottom-right corner: `D[-1,-1] = Delta[-1,-1]`, the last
column and last row are cumulative sums, and every interior cell is
`Delta[i,j] + min3(D[i+1,j+1], D[i,j+1], D[i+1,j])`.  The loops fill cells in
an order in which every right-hand side is already final, so the resulting
matrix is exactly the following recurrence, which we take as the embedding
(`dtw_c Δ m n i j` is entry `D[i,j]` for an `m × n` problem). -/
def dtw_c (Δ : ℕ → ℕ → ℚ) (m n i j : ℕ) : ℚ :=
  if _h1 : i + 1 < m then
    if _h2 : j + 1 < n then
      Δ i j + min3 (dtw_c Δ m n (i+1) (j+1)) (dtw_c Δ m n i (j+1)) (dtw_c Δ m n (i+1) j)
    else
      Δ i j + dtw_c Δ m n (i+1) j
  else
    if _h2 : j + 1 < n then
      Δ i j + dtw_c Δ m n i (j+1)
    else
      Δ i j
termination_by (m - i) + (n - j)
decreasing_by
  · omega
  · omega
  · omega
  · omega
  · omega

/-- Source `dtw(x, y, delta)`: build the pairwise replacement matrix
`Delta[i,j] = delta(x[i], y[j])`, run `dtw_c` on it and return `D[0,0]`. -/
def dtw (x y : List ℚ) (delta : ℚ → ℚ → ℚ) : ℚ :=
  dtw_c (fun i j => delta (x.getD i 0) (y.getD j 0)) x.length y.length 0 0

/-- Source `dtw_numeric(x, y)`: the replacement matrix is the pairwise
absolute difference, computed branch-wise
(`x[i] - y[j]` if `x[i] > y[j]`, else `y[j] - x[i]`), then `dtw_c`. -/
def dtw_numeric (x y : List ℚ) : ℚ :=
  dtw_c (fun i j =>
      if x.getD i 0 > y.getD j 0 then x.getD i 0 - y.getD j 0
      else y.getD j 0 - x.getD i 0)
    x.length y.length 0 0

/-! ### DTW backtrace -/

/-- Source `_BACKTRACE_TOL = 1E-5` from `dtw.pyx`. -/
def _BACKTRACE_TOL : ℚ := 1/100000

/-- Errors surfaced by backtracing.  The source raises
`ValueError('Internal error: No option is co-optimal.')`. -/
inductive BtError where
  | noCoOptimal : BtError
deriving DecidableEq

/-- Source loop `while(i < m - 1): trace.append((i,j)); i += 1`, embedded
with an explicit iteration count `c = m - 1 - i`. -/
def whileShiftI : ℕ → ℕ → ℕ → List (ℕ × ℕ)
  | 0, _, _ => []
  | c+1, i, j => (i, j) :: whileShiftI c (i+1) j

/-- Source loop `while(j < n - 1): trace.append((i,j)); j += 1`, embedded
with an explicit iteration count `c = n - 1 - j`. -/
def whileShiftJ : ℕ → ℕ → ℕ → List (ℕ × ℕ)
  | 0, _, _ => []
  | c+1, i, j => (i, j) :: whileShiftJ c i (j+1)

/-- The main backtrace loop of source `dtw_backtrace(x, y, delta)`:
starting from `(i, j)`, while `i < m-1` and `j < n-1`, append `(i,j)` and
advance by the first co-optimal option (diagonal, then `i+1`, then `j+1`,
each tested within `_BACKTRACE_TOL`); if none matches, raise.  After the
main loop the source drains the two edge loops and appends `(m-1, n-1)`. -/
def btLoop (Δ D : ℕ → ℕ → ℚ) (m n i j : ℕ) : Except BtError (List (ℕ × ℕ)) :=
  if h : i < m - 1 ∧ j < n - 1 then
    if D i j < Δ i j + D (i+1) (j+1) + _BACKTRACE_TOL then
      (btLoop Δ D m n (i+1) (j+1)).map (fun t => (i, j) :: t)
    else if D i j < Δ i j + D (i+1) j + _BACKTRACE_TOL then
      (btLoop Δ D m n (i+1) j).map (fun t => (i, j) :: t)
    else if D i j < Δ i j + D i (j+1) + _BACKTRACE_TOL then
      (btLoop Δ D m n i (j+1)).map (fun t => (i, j) :: t)
    else
      .error .noCoOptimal
  else
    .ok (whileShiftI (m - 1 - i) i j ++
         whileShiftJ (n - 1 - j) (i + (m - 1 - i)) j ++
         [(m - 1, n - 1)])
termination_by (m - i) + (n - j)
decreasing_by
  · omega
  · omega
  · omega

/-- Source `dtw_backtrace(x, y, delta)`: compute `Delta` and `D` exactly as
`dtw` does, then run the backtrace loop from `(0, 0)`. -/
def dtw_backtrace (x y : List ℚ) (delta : ℚ → ℚ → ℚ) :
    Except BtError (List (ℕ × ℕ)) :=
  let Δ : ℕ → ℕ → ℚ := fun i j => delta (x.getD i 0) (y.getD j 0)
  btLoop Δ (dtw_c Δ x.length y.length) x.length y.length 0 0

/-- A cell `(i, j)` of the backtrace has a co-optimal option when one of the
three loop conditions of `dtw_backtrace` holds there. -/
def cellOk (Δ D : ℕ → ℕ → ℚ) (i j : ℕ) : Prop :=
  D i j < Δ i j + D (i+1) (j+1) + _BACKTRACE_TOL ∨
  D i j < Δ i j + D (i+1) j + _BACKTRACE_TOL ∨
  D i j < Δ i j + D i (j+1) + _BACKTRACE_TOL

/-- One warping-path step: both indices are non-decreasing, each grows by at
most one, and at least one grows strictly. -/
def dtwStep (p q : ℕ × ℕ) : Prop :=
  p.1 ≤ q.1 ∧ p.2 ≤ q.2 ∧ q.1 ≤ p.1 + 1 ∧ q.2 ≤ p.2 + 1 ∧ (p.1 < q.1 ∨ p.2 < q.2)

/-! ### DTW lemmas -/

/-- `dtw_c` depends on the replacement matrix only pointwise. -/
theorem dtw_c_congr {Δ₁ Δ₂ : ℕ → ℕ → ℚ} (h : ∀ i j, Δ₁ i j = Δ₂ i j)
    (m n i j : ℕ) : dtw_c Δ₁ m n i j = dtw_c Δ₂ m n i j := by
  induction i, j using dtw_c.induct Δ₁ m n with
  | case1 i j h1 h2 ih1 ih2 ih3 =>
    conv_lhs => rw [dtw_c.eq_def]
    conv_rhs => rw [dtw_c.eq_def]
    rw [dif_pos h1, dif_pos h2, dif_pos h1, dif_pos h2, h, ih1, ih2, ih3]
  | case2 i j h1 h2 ih =>
    conv_lhs => rw [dtw_c.eq_def]
    conv_rhs => rw [dtw_c.eq_def]
    rw [dif_pos h1, dif_neg h2, dif_pos h1, dif_neg h2, h, ih]
  | case3 i j h1 h2 ih =>
    conv_lhs => rw [dtw_c.eq_def]
    conv_rhs => rw [dtw_c.eq_def]
    rw [dif_neg h1, dif_pos h2, dif_neg h1, dif_pos h2, h, ih]
  | case4 i j h1 h2 =>
    conv_lhs => rw [dtw_c.eq_def]
    conv_rhs => rw [dtw_c.eq_def]
    rw [dif_neg h1, dif_neg h2, dif_neg h1, dif_neg h2, h]

theorem mem_whileShiftI {p : ℕ × ℕ} :
    ∀ {c i j : ℕ}, p ∈ whileShiftI c i j → p.2 = j ∧ i ≤ p.1 ∧ p.1 < i + c := by
  intro c
  induction c with
  | zero => intro i j hp; simp [whileShiftI] at hp
  | succ c ih =>
    intro i j hp
    rw [whileShiftI] at hp
    rcases List.mem_cons.mp hp with h | h
    · subst h; omega
    · have := ih h; omega

theorem mem_whileShiftJ {p : ℕ × ℕ} :
    ∀ {c i j : ℕ}, p ∈ whileShiftJ c i j → p.1 = i ∧ j ≤ p.2 ∧ p.2 < j + c := by
  intro c
  induction c with
  | zero => intro i j hp; simp [whileShiftJ] at hp
  | succ c ih =>
    intro i j hp
    rw [whileShiftJ] at hp
    rcases List.mem_cons.mp hp with h | h
    · subst h; omega
    · have := ih h; omega

theorem btLoop_ok_cellOk (Δ D : ℕ → ℕ → ℚ) (m n : ℕ) :
    ∀ i j t, btLoop Δ D m n i j = .ok t →
      ∀ p ∈ t, p.1 < m - 1 → p.2 < n - 1 → cellOk Δ D p.1 p.2 := by
  intro i j
  induction i, j using btLoop.induct Δ D m n with
  | case1 i j hg hc ih =>
    intro t hok p hp hp1 hp2
    rw [btLoop, dif_pos hg, if_pos hc] at hok
    rcases hrec : btLoop Δ D m n (i+1) (j+1) with e | t'
    · rw [hrec] at hok; simp [Except.map] at hok
    · rw [hrec] at hok
      simp only [Except.map, Except.ok.injEq] at hok
      subst hok
      rcases List.mem_cons.mp hp with h | h
      · subst h; exact Or.inl hc
      · exact ih t' hrec p h hp1 hp2
  | case2 i j hg hc1 hc ih =>
    intro t hok p hp hp1 hp2
    rw [btLoop, dif_pos hg, if_neg hc1, if_pos hc] at hok
    rcases hrec : btLoop Δ D m n (i+1) j with e | t'
    · rw [hrec] at hok; simp [Except.map] at hok
    · rw [hrec] at hok
      simp only [Except.map, Except.ok.injEq] at hok
      subst hok
      rcases List.mem_cons.mp hp with h | h
      · subst h; exact Or.inr (Or.inl hc)
      · exact ih t' hrec p h hp1 hp2
  | case3 i j hg hc1 hc2 hc ih =>
    intro t hok p hp hp1 hp2
    rw [btLoop, dif_pos hg, if_neg hc1, if_neg hc2, if_pos hc] at hok
    rcases hrec : btLoop Δ D m n i (j+1) with e | t'
    · rw [hrec] at hok; simp [Except.map] at hok
    · rw [hrec] at hok
      simp only [Except.map, Except.ok.injEq] at hok
      subst hok
      rcases List.mem_cons.mp hp with h | h
      · subst h; exact Or.inr (Or.inr hc)
      · exact ih t' hrec p h hp1 hp2
  | case4 i j hg hc1 hc2 hc3 =>
    intro t hok
    rw [btLoop, dif_pos hg, if_neg hc1, if_neg hc2, if_neg hc3] at hok
    exact absurd hok (by simp)
  | case5 i j hg =>
    intro t hok p hp hp1 hp2
    rw [btLoop, dif_neg hg] at hok
    injection hok with hok
    subst hok
    rcases List.mem_append.mp hp with h | h
    · rcases List.mem_append.mp h with h | h
      · have := mem_whileShiftI h; omega
      · have := mem_whileShiftJ h; omega
    · simp only [List.mem_singleton] at h; subst h; omega

theorem whileShiftI_getLast : ∀ c i j, (whileShiftI (c+1) i j).getLast? = some (i + c, j) := by
  intro c
  induction c with
  | zero => intro i j; rfl
  | succ c ih =>
    intro i j
    rw [whileShiftI, whileShiftI]
    rw [List.getLast?_cons_cons, ← whileShiftI, ih]
    have h : i + 1 + c = i + (c + 1) := by omega
    rw [h]

theorem whileShiftJ_getLast : ∀ c i j, (whileShiftJ (c+1) i j).getLast? = some (i, j + c) := by
  intro c
  induction c with
  | zero => intro i j; rfl
  | succ c ih =>
    intro i j
    rw [whileShiftJ, whileShiftJ]
    rw [List.getLast?_cons_cons, ← whileShiftJ, ih]
    have h : j + 1 + c = j + (c + 1) := by omega
    rw [h]

theorem whileShiftI_chain : ∀ c i j, List.Chain' dtwStep (whileShiftI c i j) := by
  intro c
  induction c with
  | zero => intro i j; simp [whileShiftI]
  | succ c ih =>
    intro i j
    rw [whileShiftI]
    rcases c with _ | c
    · simp [whileShiftI]
    · rw [List.chain'_cons']
      refine ⟨?_, ih (i+1) j⟩
      intro q hq
      rw [whileShiftI] at hq
      simp only [List.head?_cons, Option.mem_def, Option.some.injEq] at hq
      subst hq
      simp only [dtwStep]
      omega

theorem whileShiftJ_chain : ∀ c i j, List.Chain' dtwStep (whileShiftJ c i j) := by
  intro c
  induction c with
  | zero => intro i j; simp [whileShiftJ]
  | succ c ih =>
    intro i j
    rw [whileShiftJ]
    rcases c with _ | c
    · simp [whileShiftJ]
    · rw [List.chain'_cons']
      refine ⟨?_, ih i (j+1)⟩
      intro q hq
      rw [whileShiftJ] at hq
      simp only [List.head?_cons, Option.mem_def, Option.some.injEq] at hq
      subst hq
      simp only [dtwStep]
      omega

/-- The tail of the backtrace (the two edge loops plus the final corner
append) is a monotone unit-step path from `(i, j)` to `(m-1, n-1)`. -/
theorem btTail_path (m n i j : ℕ) (hi : i ≤ m - 1) (hj : j ≤ n - 1)
    (hg : ¬(i < m - 1 ∧ j < n - 1)) :
    (whileShiftI (m - 1 - i) i j ++ whileShiftJ (n - 1 - j) (i + (m - 1 - i)) j ++
      [(m - 1, n - 1)]).head? = some (i, j) ∧
    (whileShiftI (m - 1 - i) i j ++ whileShiftJ (n - 1 - j) (i + (m - 1 - i)) j ++
      [(m - 1, n - 1)]).getLast? = some (m - 1, n - 1) ∧
    List.Chain' dtwStep
      (whileShiftI (m - 1 - i) i j ++ whileShiftJ (n - 1 - j) (i + (m - 1 - i)) j ++
        [(m - 1, n - 1)]) := by
  rcases Nat.lt_or_ge i (m - 1) with hilt | hige
  · -- i < m - 1, hence j = n - 1
    have hjeq : j = n - 1 := by omega
    have hc : m - 1 - i = (m - 2 - i) + 1 := by omega
    have hcount : n - 1 - j = 0 := by omega
    rw [hcount, whileShiftJ]
    refine ⟨?_, ?_, ?_⟩
    · rw [hc, whileShiftI]
      simp
    · rw [List.getLast?_append_cons]
      rfl
    · rw [List.append_nil]
      rw [List.chain'_append]
      refine ⟨whileShiftI_chain _ i j, by simp, ?_⟩
      intro p hp q hq
      simp only [List.head?_cons, Option.mem_def, Option.some.injEq] at hq
      subst hq
      rw [hc, whileShiftI_getLast] at hp
      simp only [Option.mem_def, Option.some.injEq] at hp
      subst hp
      simp only [dtwStep]
      omega
  · -- i = m - 1
    have hcount : m - 1 - i = 0 := by omega
    rw [hcount, whileShiftI, Nat.add_zero, List.nil_append]
    rcases Nat.lt_or_ge j (n - 1) with hjlt | hjge
    · have hc : n - 1 - j = (n - 2 - j) + 1 := by omega
      refine ⟨?_, ?_, ?_⟩
      · rw [hc, whileShiftJ]
        simp
      · rw [List.getLast?_append_cons]
        rfl
      · rw [List.chain'_append]
        refine ⟨whileShiftJ_chain _ i j, by simp, ?_⟩
        intro p hp q hq
        simp only [List.head?_cons, Option.mem_def, Option.some.injEq] at hq
        subst hq
        rw [hc, whileShiftJ_getLast] at hp
        simp only [Option.mem_def, Option.some.injEq] at hp
        subst hp
        simp only [dtwStep]
        omega
    · have hjeq : j = n - 1 := by omega
      have hieq2 : i = m - 1 := by omega
      have hcount2 : n - 1 - j = 0 := by omega
      rw [hcount2, whileShiftJ, List.nil_append]
      subst hjeq hieq2
      simp

/-- Any successful run of the backtrace loop from a cell `(i, j)` inside the
matrix yields a monotone unit-step path from `(i, j)` to `(m-1, n-1)`. -/
theorem btLoop_ok_path (Δ D : ℕ → ℕ → ℚ) (m n : ℕ) :
    ∀ i j t, i ≤ m - 1 → j ≤ n - 1 → btLoop Δ D m n i j = .ok t →
      t.head? = some (i, j) ∧ t.getLast? = some (m - 1, n - 1) ∧
      List.Chain' dtwStep t := by
  intro i j
  induction i, j using btLoop.induct Δ D m n with
  | case1 i j hg hc ih =>
    intro t hi hj hok
    rw [btLoop, dif_pos hg, if_pos hc] at hok
    rcases hrec : btLoop Δ D m n (i+1) (j+1) with e | t'
    · rw [hrec] at hok; simp [Except.map] at hok
    · rw [hrec] at hok
      simp only [Except.map, Except.ok.injEq] at hok
      subst hok
      obtain ⟨h1, h2, h3⟩ := ih t' (by omega) (by omega) hrec
      have hne : t' ≠ [] := by intro h; rw [h] at h1; simp at h1
      obtain ⟨a, t'', rfl⟩ := List.exists_cons_of_ne_nil hne
      refine ⟨rfl, ?_, ?_⟩
      · rw [List.getLast?_cons_cons]
        exact h2
      · rw [List.chain'_cons']
        refine ⟨?_, h3⟩
        intro q hq
        rw [h1] at hq
        simp only [Option.mem_def, Option.some.injEq] at hq
        subst hq
        simp only [dtwStep]
        omega
  | case2 i j hg hc1 hc ih =>
    intro t hi hj hok
    rw [btLoop, dif_pos hg, if_neg hc1, if_pos hc] at hok
    rcases hrec : btLoop Δ D m n (i+1) j with e | t'
    · rw [hrec] at hok; simp [Except.map] at hok
    · rw [hrec] at hok
      simp only [Except.map, Except.ok.injEq] at hok
      subst hok
      obtain ⟨h1, h2, h3⟩ := ih t' (by omega) (by omega) hrec
      have hne : t' ≠ [] := by intro h; rw [h] at h1; simp at h1
      obtain ⟨a, t'', rfl⟩ := List.exists_cons_of_ne_nil hne
      refine ⟨rfl, ?_, ?_⟩
      · rw [List.getLast?_cons_cons]
        exact h2
      · rw [List.chain'_cons']
        refine ⟨?_, h3⟩
        intro q hq
        rw [h1] at hq
        simp only [Option.mem_def, Option.some.injEq] at hq
        subst hq
        simp only [dtwStep]
        omega
  | case3 i j hg hc1 hc2 hc ih =>
    intro t hi hj hok
    rw [btLoop, dif_pos hg, if_neg hc1, if_neg hc2, if_pos hc] at hok
    rcases hrec : btLoop Δ D m n i (j+1) with e | t'
    · rw [hrec] at hok; simp [Except.map] at hok
    · rw [hrec] at hok
      simp only [Except.map, Except.ok.injEq] at hok
      subst hok
      obtain ⟨h1, h2, h3⟩ := ih t' (by omega) (by omega) hrec
      have hne : t' ≠ [] := by intro h; rw [h] at h1; simp at h1
      obtain ⟨a, t'', rfl⟩ := List.exists_cons_of_ne_nil hne
      refine ⟨rfl, ?_, ?_⟩
      · rw [List.getLast?_cons_cons]
        exact h2
      · rw [List.chain'_cons']
        refine ⟨?_, h3⟩
        intro q hq
        rw [h1] at hq
        simp only [Option.mem_def, Option.some.injEq] at hq
        subst hq
        simp only [dtwStep]
        omega
  | case4 i j hg hc1 hc2 hc3 =>
    intro t hi hj hok
    rw [btLoop, dif_pos hg, if_neg hc1, if_neg hc2, if_neg hc3] at hok
    exact absurd hok (by simp)
  | case5 i j hg =>
    intro t hi hj hok
    rw [btLoop, dif_neg hg] at hok
    injection hok with hok
    subst hok
    exact btTail_path m n i j hi hj hg

/-! ### DTW claim theorems -/

/-- Claim C9: for all non-empty sequences of floats `x` and `y`,
`dtw_numeric(x, y)` returns the same value as `dtw(x, y, delta)` with
`delta(a, b) = |a - b|`: both build the same pairwise absolute-difference
matrix, run the same `dtw_c` recurrence on it, and return `D[0,0]`. -/
theorem dtw_numeric_matches_dtw_abs (x y : List ℚ) (hx : x ≠ []) (hy : y ≠ []) :
    dtw_numeric x y = dtw x y (fun a b => |a - b|) := by
  unfold dtw_numeric dtw
  refine dtw_c_congr (fun i j => ?_) x.length y.length 0 0
  show _ = |x.getD i 0 - y.getD j 0|
  by_cases hgt : x.getD i 0 > y.getD j 0
  · rw [if_pos hgt]
    exact (abs_of_pos (sub_pos.mpr hgt)).symm
  · rw [if_neg hgt, abs_sub_comm]
    exact (abs_of_nonneg (sub_nonneg.mpr (not_lt.mp hgt))).symm

/-- Witness for C9 at `x = [0, 2]`, `y = [1]`. -/
theorem dtw_numeric_matches_dtw_abs_witness :
    dtw_numeric [0, 2] [1] = dtw [0, 2] [1] (fun a b => |a - b|) :=
  dtw_numeric_matches_dtw_abs [0, 2] [1] (by simp) (by simp)

/-- Claim C4: if at some cell the backtrace finds no option whose cost
matches the stored optimum within the tolerance, the computation aborts with
the internal-consistency error, which is surfaced to the caller: the first
conjunct shows the loop returns the error at such a cell, the second shows
any successful (non-error) result visited only cells with a co-optimal
option, so an error can never be silently recovered into a partial trace. -/
theorem dtw_backtrace_error_surfaced :
    (∀ (Δ D : ℕ → ℕ → ℚ) (m n i j : ℕ), i < m - 1 → j < n - 1 →
        ¬ cellOk Δ D i j → btLoop Δ D m n i j = .error .noCoOptimal) ∧
    (∀ (Δ D : ℕ → ℕ → ℚ) (m n i j : ℕ) (t : List (ℕ × ℕ)),
        btLoop Δ D m n i j = .ok t →
        ∀ p ∈ t, p.1 < m - 1 → p.2 < n - 1 → cellOk Δ D p.1 p.2) := by
  constructor
  · intro Δ D m n i j hi hj hbad
    have h1 : ¬(D i j < Δ i j + D (i+1) (j+1) + _BACKTRACE_TOL) :=
      fun hc => hbad (Or.inl hc)
    have h2 : ¬(D i j < Δ i j + D (i+1) j + _BACKTRACE_TOL) :=
      fun hc => hbad (Or.inr (Or.inl hc))
    have h3 : ¬(D i j < Δ i j + D i (j+1) + _BACKTRACE_TOL) :=
      fun hc => hbad (Or.inr (Or.inr hc))
    rw [btLoop, dif_pos ⟨hi, hj⟩, if_neg h1, if_neg h2, if_neg h3]
  · exact fun Δ D m n i j t => btLoop_ok_cellOk Δ D m n i j t

/-- Witness for C4: a concrete cell with no co-optimal option aborts. -/
theorem dtw_backtrace_error_surfaced_witness :
    btLoop (fun _ _ => (0 : ℚ)) (fun i j => if i = 0 ∧ j = 0 then 1 else 0)
      2 2 0 0 = .error .noCoOptimal := by
  refine dtw_backtrace_error_surfaced.1 _ _ 2 2 0 0 (by norm_num) (by norm_num) ?_
  intro hcell
  rcases hcell with hc | hc | hc <;>
    norm_num [_BACKTRACE_TOL] at hc

/-- Claim C10: for sequences of length `m ≥ 1` and `n ≥ 1` such that the
backtrace succeeds (some option is co-optimal at every visited cell), the
trace returned by `dtw_backtrace` starts at `(0,0)`, ends at `(m-1, n-1)`,
and every consecutive pair of entries is a monotone unit step with at least
one index strictly increasing. -/
theorem dtw_backtrace_monotone_path (x y : List ℚ) (delta : ℚ → ℚ → ℚ)
    (t : List (ℕ × ℕ)) (hx : 1 ≤ x.length) (hy : 1 ≤ y.length)
    (hok : dtw_backtrace x y delta = .ok t) :
    t.head? = some (0, 0) ∧ t.getLast? = some (x.length - 1, y.length - 1) ∧
      List.Chain' dtwStep t := by
  simp only [dtw_backtrace] at hok
  exact btLoop_ok_path _ _ x.length y.length 0 0 t (by omega) (by omega) hok

/-- Witness for C10 at `x = [0, 1]`, `y = [2]` with unit-step trace
`[(0,0), (1,0)]`. -/
theorem dtw_backtrace_monotone_path_witness :
    ([((0:ℕ), (0:ℕ)), (1, 0)]).head? = some (0, 0) ∧
    ([((0:ℕ), (0:ℕ)), (1, 0)]).getLast? =
      some ([(0:ℚ), 1].length - 1, [(2:ℚ)].length - 1) ∧
    List.Chain' dtwStep [((0:ℕ), (0:ℕ)), (1, 0)] :=
  dtw_backtrace_monotone_path [0, 1] [2] (fun a b => |a - b|) [(0, 0), (1, 0)]
    (by simp) (by simp)
    (by
      simp only [dtw_backtrace]
      rw [btLoop]
      norm_num [whileShiftI, whileShiftJ])

/-! ### Tree model -/

/-- Modelled from the spec: the Tree Model of `edist` (absent from the
provided sources) — an ordered labeled tree given by a label and the ordered
list of children; a node's index is its position in preorder. -/
inductive RTree (L : Type) where
  | node : L → List (RTree L) → RTree L

/-- An ordered forest: the spec's ordered collection of sibling subtrees. -/
abbrev Forest (L : Type) := List (RTree L)

/-- Number of nodes of a forest (the spec's subtree size, summed). -/
def sizeF {L : Type} : Forest L → ℕ
  | [] => 0
  | .node _ cs :: rest => 1 + sizeF cs + sizeF rest

/-- Labels of a forest in preorder. -/
def labelsF {L : Type} : Forest L → List L
  | [] => []
  | .node x cs :: rest => x :: (labelsF cs ++ labelsF rest)

/-- Preorder enumeration of a label list starting at index `n`. -/
def numberFrom {L : Type} (n : ℕ) : List L → List (ℕ × L)
  | [] => []
  | x :: xs => (n, x) :: numberFrom (n+1) xs

theorem sizeF_append {L : Type} (F G : Forest L) :
    sizeF (F ++ G) = sizeF F + sizeF G := by
  induction F with
  | nil => simp [sizeF]
  | cons t rest ih =>
    rcases t with ⟨x, cs⟩
    simp [sizeF, ih]
    omega

theorem sizeF_reverse {L : Type} (F : Forest L) : sizeF F.reverse = sizeF F := by
  induction F with
  | nil => rfl
  | cons t rest ih =>
    rcases t with ⟨x, cs⟩
    rw [List.reverse_cons, sizeF_append, ih]
    simp [sizeF]
    omega

/-! ### Costs -/

/-- Modelled from the spec: the cost domain of the Cost Provider — a
non-negative real (embedded as an exact rational) or positive infinity,
which forbids an alignment choice. -/
inductive Cost where
  | inf : Cost
  | fin : ℚ → Cost
deriving DecidableEq

/-- Cost addition; infinity is absorbing. -/
def Cost.add : Cost → Cost → Cost
  | .inf, _ => .inf
  | .fin _, .inf => .inf
  | .fin a, .fin b => .fin (a + b)

instance : Add Cost := ⟨Cost.add⟩

/-- Cost minimum; infinity is the largest cost. -/
def Cost.minc : Cost → Cost → Cost
  | .inf, b => b
  | a, .inf => a
  | .fin a, .fin b => if a ≤ b then .fin a else .fin b

/-- Sum of a list of costs. -/
def Cost.sum (l : List Cost) : Cost := l.foldr Cost.add (.fin 0)

/-- Modelled from the spec: a pluggable two-argument cost function over
(label-or-absent, label-or-absent); `none` is the absent counterpart. -/
abbrev CostFn (L : Type) := Option L → Option L → Cost

/-- Modelled from the spec: the default unit cost — `0` if the two sides are
equal, else `1` (deletions and insertions compare a label against absent,
hence cost `1`). -/
def unitCost {L : Type} [DecidableEq L] : CostFn L :=
  fun a b => if a = b then .fin 0 else .fin 1

/-! ### Forest distance -/

/-- Modelled from the spec: the Forest-Distance Engine of `edist.ted`
(absent from the provided sources) — the Zhang-Shasha forest-edit-distance
recurrence.  Forests are kept in reversed order, so the head of the list is
the rightmost root; the three options are (1) delete the rightmost source
root (its children join the forest in its place), (2) insert the rightmost
target root, and (3) align the two rightmost roots, which costs the forest
distance of their child forests plus the relabeling cost.  An empty side
costs the sum of insertion (resp. deletion) costs of the other side. -/
def fdistR {L : Type} (δ : CostFn L) : Forest L → Forest L → Cost
  | [], G => Cost.sum ((labelsF G).map (fun l => δ none (some l)))
  | .node x fx :: Fr, [] =>
      Cost.sum ((labelsF (.node x fx :: Fr)).map (fun l => δ (some l) none))
  | .node x fx :: Fr, .node y gy :: Gr =>
      Cost.minc
        (Cost.minc
          (fdistR δ (fx.reverse ++ Fr) (.node y gy :: Gr) + δ (some x) none)
          (fdistR δ (.node x fx :: Fr) (gy.reverse ++ Gr) + δ none (some y)))
        (fdistR δ Fr Gr + (fdistR δ fx.reverse gy.reverse + δ (some x) (some y)))
termination_by F G => sizeF F + sizeF G
decreasing_by
  all_goals simp [sizeF, sizeF_append, sizeF_reverse]
  all_goals omega

/-- Modelled from the spec: `ted.ted(x, y, delta)` — the tree edit distance
is the forest distance of the two singleton forests. -/
def ted {L : Type} (δ : CostFn L) (x y : RTree L) : Cost := fdistR δ [x] [y]

/-! ### Backtrace -/

/-- The three backtrace options of the spec. -/
inductive BtOption where
  | alignRoots | delRoot | insRoot
deriving DecidableEq

/-- Modelled from the spec: two floating costs are treated as equal when
their absolute difference is below the fixed tolerance `ε = 1e-5` (stated
here as the equivalent conjunction of the two signed differences); two
infinite costs are equal. -/
def Cost.approx : Cost → Cost → Prop
  | .inf, .inf => True
  | .fin a, .fin b => a - b < _BACKTRACE_TOL ∧ b - a < _BACKTRACE_TOL
  | _, _ => False

instance : (a b : Cost) → Decidable (Cost.approx a b)
  | .inf, .inf => isTrue trivial
  | .inf, .fin _ => isFalse (fun h => h)
  | .fin _, .inf => isFalse (fun h => h)
  | .fin a, .fin b =>
      inferInstanceAs (Decidable (a - b < _BACKTRACE_TOL ∧ b - a < _BACKTRACE_TOL))

/-- Modelled from the spec: select the first option whose cost matches the
stored optimum `d` within the tolerance, in the fixed preference order
align roots, delete source root, insert target root; `none` signals the
internal-consistency error. -/
def chooseOpt (cA cD cI d : Cost) : Option BtOption :=
  if Cost.approx cA d then some .alignRoots
  else if Cost.approx cD d then some .delRoot
  else if Cost.approx cI d then some .insRoot
  else none

/-- Modelled from the spec: the Backtrace Engine of `edist.ted` (absent from
the provided sources) — re-walk the recurrence of `fdistR` on indexed
forests top-down; at each cell evaluate the three options and take the
first co-optimal one via `chooseOpt`, recording `(i, j)` for an aligned
pair, `(i, absent)` for a deletion and `(absent, j)` for an insertion; if
no option is within tolerance, the internal-consistency error is raised. -/
def btrR {L : Type} (δ : CostFn (ℕ × L)) :
    Forest (ℕ × L) → Forest (ℕ × L) →
      Except BtError (List (Option ℕ × Option ℕ))
  | [], G => .ok ((labelsF G).map (fun p => (none, some p.1)))
  | .node (i, x) fx :: Fr, [] =>
      .ok ((labelsF (.node (i, x) fx :: Fr)).map (fun p => (some p.1, none)))
  | .node (i, x) fx :: Fr, .node (j, y) gy :: Gr =>
      match chooseOpt
        (fdistR δ Fr Gr +
          (fdistR δ fx.reverse gy.reverse + δ (some (i, x)) (some (j, y))))
        (fdistR δ (fx.reverse ++ Fr) (.node (j, y) gy :: Gr) +
          δ (some (i, x)) none)
        (fdistR δ (.node (i, x) fx :: Fr) (gy.reverse ++ Gr) +
          δ none (some (j, y)))
        (fdistR δ (.node (i, x) fx :: Fr) (.node (j, y) gy :: Gr)) with
      | some .alignRoots =>
          match btrR δ fx.reverse gy.reverse, btrR δ Fr Gr with
          | .ok a1, .ok a2 => .ok ((some i, some j) :: (a1 ++ a2))
          | .error e, _ => .error e
          | .ok _, .error e => .error e
      | some .delRoot =>
          (btrR δ (fx.reverse ++ Fr) (.node (j, y) gy :: Gr)).map
            (fun a => (some i, none) :: a)
      | some .insRoot =>
          (btrR δ (.node (i, x) fx :: Fr) (gy.reverse ++ Gr)).map
            (fun a => (none, some j) :: a)
      | none => .error .noCoOptimal
termination_by F G => sizeF F + sizeF G
decreasing_by
  all_goals simp [sizeF, sizeF_append, sizeF_reverse]
  all_goals omega

/-- Lift a cost function to indexed labels (the index is bookkeeping). -/
def liftCost {L : Type} (δ : CostFn L) : CostFn (ℕ × L) :=
  fun a b => δ (a.map Prod.snd) (b.map Prod.snd)

/-- Attach preorder indices (starting at `n`) to every node of a forest. -/
def idxF {L : Type} (n : ℕ) : Forest L → Forest (ℕ × L)
  | [] => []
  | .node x cs :: rest =>
      .node (n, x) (idxF (n + 1) cs) :: idxF (n + (1 + sizeF cs)) rest
termination_by F => sizeF F
decreasing_by
  all_goals simp [sizeF]
  all_goals omega

/-- Modelled from the spec: `ted.ted_backtrace(x, y, delta)` — run the
backtrace on the two preorder-indexed singleton forests, producing an
alignment as a list of `(sourceIndex-or-none, targetIndex-or-none)` pairs. -/
def tedBacktrace {L : Type} (δ : CostFn L) (x y : RTree L) :
    Except BtError (List (Option ℕ × Option ℕ)) :=
  btrR (liftCost δ) (idxF 0 [x]) (idxF 0 [y])

/-! ### building and serializing trees -/

/-- Build the subtree rooted at preorder index `i` from a node list and an
adjacency list; the fuel argument bounds the recursion depth. -/
def buildT {L : Type} [Inhabited L] (nodes : List L) (adj : List (List ℕ)) :
    ℕ → ℕ → RTree L
  | 0, i => .node (nodes.getD i default) []
  | f+1, i => .node (nodes.getD i default) ((adj.getD i []).map (buildT nodes adj f))

/-- Modelled from the spec: interpret the node-list/adjacency-list format
(preorder labels plus ordered child indices) as a tree. -/
def build {L : Type} [Inhabited L] (nodes : List L) (adj : List (List ℕ)) : RTree L :=
  buildT nodes adj nodes.length 0

/-- Preorder indices of the roots of a forest whose first node sits at
overall preorder position `o`. -/
def childIdxs {L : Type} (o : ℕ) : Forest L → List ℕ
  | [] => []
  | .node _ cs :: rest => o :: childIdxs (o + (1 + sizeF cs)) rest

/-- Adjacency rows (in preorder) of a forest starting at position `o`. -/
def adjF {L : Type} (o : ℕ) : Forest L → List (List ℕ)
  | [] => []
  | .node _ cs :: rest =>
      childIdxs (o + 1) cs :: (adjF (o + 1) cs ++ adjF (o + (1 + sizeF cs)) rest)
termination_by F => sizeF F
decreasing_by
  all_goals simp [sizeF]
  all_goals omega

/-- Serialize a tree back to the node-list/adjacency-list format; this is
where node indices are renumbered after an edit. -/
def toLists {L : Type} (t : RTree L) : List L × List (List ℕ) :=
  (labelsF [t], adjF 0 [t])

/-! ### tree edits -/

/-- Modelled from the spec: the atomic tree edits of `edist.tree_edits`
(absent from the provided sources) — `Replacement(i, l)`, `Deletion(i)` and
`Insertion(parent, childIdx, label, numChildren)`. -/
inductive TreeEdit (L : Type) where
  | replacement (i : ℕ) (l : L)
  | deletion (i : ℕ)
  | insertion (parent childIdx : ℕ) (l : L) (numChildren : ℕ)

/-- Relabel the node with preorder index `k` of a forest. -/
def repF {L : Type} (k : ℕ) (l : L) : Forest L → Forest L
  | [] => []
  | .node x cs :: rest =>
      if k = 0 then .node l cs :: rest
      else if k < 1 + sizeF cs then .node x (repF (k-1) l cs) :: rest
      else .node x cs :: repF (k - (1 + sizeF cs)) l rest
termination_by F => sizeF F
decreasing_by
  all_goals simp [sizeF]
  all_goals omega

/-- Delete the node with preorder index `k`: its children are reattached at
its position under its parent, preserving sibling order. -/
def delF {L : Type} (k : ℕ) : Forest L → Forest L
  | [] => []
  | .node x cs :: rest =>
      if k = 0 then cs ++ rest
      else if k < 1 + sizeF cs then .node x (delF (k-1) cs) :: rest
      else .node x cs :: delF (k - (1 + sizeF cs)) rest
termination_by F => sizeF F
decreasing_by
  all_goals simp [sizeF]
  all_goals omega

/-- Insert a new node labelled `l` as child number `c` of the node with
preorder index `p`; the contiguous run of `nc` existing children starting
at position `c` becomes the new node's children. -/
def insF {L : Type} (p c : ℕ) (l : L) (nc : ℕ) : Forest L → Forest L
  | [] => []
  | .node x cs :: rest =>
      if p = 0 then
        .node x (cs.take c ++ .node l ((cs.drop c).take nc) :: cs.drop (c + nc)) :: rest
      else if p < 1 + sizeF cs then .node x (insF (p-1) c l nc cs) :: rest
      else .node x cs :: insF (p - (1 + sizeF cs)) c l nc rest
termination_by F => sizeF F
decreasing_by
  all_goals simp [sizeF]
  all_goals omega

/-- Modelled from the spec: `tree_edits.Edit.apply(nodes, adj)` — apply one
atomic edit to a tree in node-list/adjacency-list form, producing the new
node list and adjacency list (a pure function; the input is not mutated). -/
def TreeEdit.apply {L : Type} [Inhabited L] (e : TreeEdit L)
    (nodes : List L) (adj : List (List ℕ)) : List L × List (List ℕ) :=
  match e with
  | .replacement i l =>
      match repF i l [build nodes adj] with
      | [t] => toLists t
      | _ => (nodes, adj)
  | .deletion i =>
      match delF i [build nodes adj] with
      | [t] => toLists t
      | _ => (nodes, adj)
  | .insertion p c l nc =>
      match insF p c l nc [build nodes adj] with
      | [t] => toLists t
      | _ => (nodes, adj)

/-! ### expression labels (C5) -/

/-- Labels of the algebraic-expression example from the demo notebook:
operator symbols and integers. -/
inductive Lbl where
  | sym : Char → Lbl
  | num : ℤ → Lbl
deriving DecidableEq, Inhabited

/-- The custom cost function `delta` of the demo notebook (cell 5): absent
counterparts cost 1; algebraic operators align only with themselves (cost 0)
and any other operator pairing is forbidden with infinite cost; two numbers
cost their absolute difference divided by their maximum. -/
def exprDelta : CostFn Lbl := fun a b =>
  match a, b with
  | none, _ => .fin 1
  | _, none => .fin 1
  | some x, some y =>
      if x = Lbl.sym '+' ∨ x = Lbl.sym '*' ∨ y = Lbl.sym '+' ∨ y = Lbl.sym '*' then
        (if x = y then .fin 0 else .inf)
      else
        match x, y with
        | .num p, .num q => .fin (|(p : ℚ) - (q : ℚ)| / max (p : ℚ) (q : ℚ))
        | _, _ => .fin 1

/-- The demo notebook's tree `a(b(c,d), e)`. -/
def X2 : RTree Char := build ['a','b','c','d','e'] [[1,4],[2,3],[],[],[]]
/-- The demo notebook's tree `a(c(d))`. -/
def Y2 : RTree Char := build ['a','c','d'] [[1],[2],[]]


/-- The demo notebook's expression tree `+(3, *(5,2))`. -/
def X5 : RTree Lbl := build [.sym '+', .num 3, .sym '*', .num 5, .num 2] [[1,2],[],[3,4],[],[]]
/-- The demo notebook's expression tree `*(2, *(2,3))`. -/
def Y5 : RTree Lbl := build [.sym '*', .num 2, .sym '*', .num 2, .num 3] [[1,2],[],[3,4],[],[]]


-- C7 and C8

@[simp] theorem Cost.inf_add (c : Cost) : Cost.inf + c = Cost.inf := rfl
@[simp] theorem Cost.fin_add_inf (a : ℚ) : Cost.fin a + Cost.inf = Cost.inf := rfl
@[simp] theorem Cost.fin_add_fin (a b : ℚ) :
    Cost.fin a + Cost.fin b = Cost.fin (a + b) := rfl
@[simp] theorem Cost.minc_inf_left (c : Cost) : Cost.minc .inf c = c := by
  cases c <;> rfl
@[simp] theorem Cost.minc_fin_inf (a : ℚ) :
    Cost.minc (Cost.fin a) .inf = Cost.fin a := rfl
@[simp] theorem Cost.minc_fin_fin (a b : ℚ) :
    Cost.minc (Cost.fin a) (Cost.fin b) = if a ≤ b then Cost.fin a else Cost.fin b := rfl
@[simp] theorem Cost.approx_fin_fin (a b : ℚ) :
    Cost.approx (Cost.fin a) (Cost.fin b) ↔
      (a - b < _BACKTRACE_TOL ∧ b - a < _BACKTRACE_TOL) := Iff.rfl
@[simp] theorem Cost.approx_inf_fin (b : ℚ) :
    Cost.approx Cost.inf (Cost.fin b) ↔ False := Iff.rfl
@[simp] theorem Cost.approx_fin_inf (a : ℚ) :
    Cost.approx (Cost.fin a) Cost.inf ↔ False := Iff.rfl

/-! ### Cost predicates and algebra -/

def Cost.Nonneg : Cost → Prop
  | .inf => True
  | .fin q => 0 ≤ q

theorem Cost.nonneg_add {a b : Cost} (ha : a.Nonneg) (hb : b.Nonneg) :
    (a + b).Nonneg := by
  cases a with
  | inf => exact trivial
  | fin qa =>
    cases b with
    | inf => exact trivial
    | fin qb =>
      show (0 : ℚ) ≤ qa + qb
      exact add_nonneg ha hb

theorem Cost.nonneg_minc {a b : Cost} (ha : a.Nonneg) (hb : b.Nonneg) :
    (a.minc b).Nonneg := by
  cases a with
  | inf => rw [Cost.minc_inf_left]; exact hb
  | fin qa =>
    cases b with
    | inf => exact ha
    | fin qb =>
      rw [Cost.minc_fin_fin]
      split
      · exact ha
      · exact hb

theorem Cost.nonneg_sum {l : List Cost} (h : ∀ c ∈ l, c.Nonneg) :
    (Cost.sum l).Nonneg := by
  induction l with
  | nil => exact le_refl 0
  | cons c r ih =>
    have hc : c.Nonneg := h c (List.mem_cons_self c r)
    have hr : (Cost.sum r).Nonneg := ih (fun d hd => h d (List.mem_cons_of_mem c hd))
    exact Cost.nonneg_add hc hr

theorem Cost.minc_nonneg_zero {c : Cost} (hc : c.Nonneg) :
    c.minc (Cost.fin 0) = Cost.fin 0 := by
  cases c with
  | inf => rfl
  | fin q =>
    rw [Cost.minc_fin_fin]
    split
    · have h : q = 0 := le_antisymm (by assumption) hc
      rw [h]
    · rfl

theorem sizeF_eq_zero_iff {L : Type} (F : Forest L) : sizeF F = 0 ↔ F = [] := by
  cases F with
  | nil => simp [sizeF]
  | cons t rest =>
    rcases t with ⟨x, cs⟩
    simp [sizeF]

theorem fdistR_nil_nil {L : Type} (δ : CostFn L) : fdistR δ [] [] = Cost.fin 0 := by
  rw [fdistR]
  rw [labelsF]
  rfl

theorem fdistR_nonneg {L : Type} (δ : CostFn L)
    (hnn : ∀ a b, Cost.Nonneg (δ a b)) :
    ∀ (F G : Forest L), Cost.Nonneg (fdistR δ F G) := by
  suffices H : ∀ (n : ℕ) (F G : Forest L), sizeF F + sizeF G ≤ n →
      Cost.Nonneg (fdistR δ F G) from
    fun F G => H (sizeF F + sizeF G) F G le_rfl
  intro n
  induction n with
  | zero =>
    intro F G h
    have hF : F = [] := (sizeF_eq_zero_iff F).mp (by omega)
    have hG : G = [] := (sizeF_eq_zero_iff G).mp (by omega)
    subst hF hG
    rw [fdistR_nil_nil]
    exact le_refl 0
  | succ n ih =>
    intro F G h
    rcases F with _ | ⟨⟨x, fx⟩, Fr⟩
    · rw [fdistR]
      refine Cost.nonneg_sum ?_
      intro c hc
      obtain ⟨a, _, rfl⟩ := List.mem_map.mp hc
      exact hnn none (some a)
    · rcases G with _ | ⟨⟨y, gy⟩, Gr⟩
      · rw [fdistR]
        refine Cost.nonneg_sum ?_
        intro c hc
        obtain ⟨a, _, rfl⟩ := List.mem_map.mp hc
        exact hnn (some a) none
      · rw [fdistR]
        simp only [sizeF] at h
        refine Cost.nonneg_minc (Cost.nonneg_minc ?_ ?_) ?_
        · refine Cost.nonneg_add (ih _ _ ?_) (hnn _ _)
          simp [sizeF, sizeF_append, sizeF_reverse]
          omega
        · refine Cost.nonneg_add (ih _ _ ?_) (hnn _ _)
          simp [sizeF, sizeF_append, sizeF_reverse]
          omega
        · refine Cost.nonneg_add (ih _ _ ?_) (Cost.nonneg_add (ih _ _ ?_) (hnn _ _))
          · omega
          · simp only [sizeF_reverse]
            omega

theorem fdistR_self_zero {L : Type} (δ : CostFn L)
    (h0 : ∀ a, δ (some a) (some a) = Cost.fin 0)
    (hnn : ∀ a b, Cost.Nonneg (δ a b)) :
    ∀ F : Forest L, fdistR δ F F = Cost.fin 0 := by
  suffices H : ∀ (n : ℕ) (F : Forest L), sizeF F ≤ n → fdistR δ F F = Cost.fin 0 from
    fun F => H (sizeF F) F le_rfl
  intro n
  induction n with
  | zero =>
    intro F h
    have hF : F = [] := (sizeF_eq_zero_iff F).mp (by omega)
    subst hF
    exact fdistR_nil_nil δ
  | succ n ih =>
    intro F h
    rcases F with _ | ⟨⟨x, fx⟩, Fr⟩
    · exact fdistR_nil_nil δ
    · rw [fdistR]
      simp only [sizeF] at h
      have hA1 : fdistR δ Fr Fr = Cost.fin 0 := ih Fr (by omega)
      have hA2 : fdistR δ fx.reverse fx.reverse = Cost.fin 0 :=
        ih fx.reverse (by rw [sizeF_reverse]; omega)
      rw [hA1, hA2, h0 x, Cost.fin_add_fin, Cost.fin_add_fin, add_zero, add_zero]
      refine Cost.minc_nonneg_zero (Cost.nonneg_minc ?_ ?_)
      · exact Cost.nonneg_add (fdistR_nonneg δ hnn _ _) (hnn _ _)
      · exact Cost.nonneg_add (fdistR_nonneg δ hnn _ _) (hnn _ _)

/-! ### label-list lemmas -/

theorem mem_labelsF_append {L : Type} {q : L} :
    ∀ (A B : Forest L), q ∈ labelsF (A ++ B) ↔ q ∈ labelsF A ∨ q ∈ labelsF B := by
  intro A
  induction A with
  | nil => intro B; simp [labelsF]
  | cons t rest ih =>
    intro B
    rcases t with ⟨x, cs⟩
    rw [List.cons_append, labelsF, labelsF]
    simp only [List.mem_cons, List.mem_append, ih B]
    tauto

theorem mem_labelsF_reverse {L : Type} {q : L} :
    ∀ (F : Forest L), q ∈ labelsF F.reverse ↔ q ∈ labelsF F := by
  intro F
  induction F with
  | nil => simp
  | cons t rest ih =>
    rcases t with ⟨x, cs⟩
    rw [List.reverse_cons, mem_labelsF_append, labelsF, labelsF]
    simp only [List.mem_cons, List.mem_append, ih]
    simp [labelsF]
    tauto

theorem btrR_self_id {L : Type} (δ : CostFn (ℕ × L))
    (h0 : ∀ p, δ (some p) (some p) = Cost.fin 0)
    (hnn : ∀ a b, Cost.Nonneg (δ a b)) :
    ∀ F : Forest (ℕ × L), ∃ al, btrR δ F F = .ok al ∧
      (∀ pr ∈ al, ∃ k, pr = (some k, some k)) ∧
      (∀ q ∈ labelsF F, (some q.1, some q.1) ∈ al) := by
  suffices H : ∀ (n : ℕ) (F : Forest (ℕ × L)), sizeF F ≤ n →
      ∃ al, btrR δ F F = .ok al ∧
        (∀ pr ∈ al, ∃ k, pr = (some k, some k)) ∧
        (∀ q ∈ labelsF F, (some q.1, some q.1) ∈ al) from
    fun F => H (sizeF F) F le_rfl
  intro n
  induction n with
  | zero =>
    intro F h
    have hF : F = [] := (sizeF_eq_zero_iff F).mp (by omega)
    subst hF
    exact ⟨[], by rw [btrR]; rw [labelsF]; rfl, by simp, by simp [labelsF]⟩
  | succ n ih =>
    intro F h
    rcases F with _ | ⟨⟨⟨i, x⟩, fx⟩, Fr⟩
    · exact ⟨[], by rw [btrR]; rw [labelsF]; rfl, by simp, by simp [labelsF]⟩
    · simp only [sizeF] at h
      have hd : fdistR δ (RTree.node (i, x) fx :: Fr) (RTree.node (i, x) fx :: Fr) =
          Cost.fin 0 := fdistR_self_zero δ h0 hnn _
      have hA1 : fdistR δ Fr Fr = Cost.fin 0 := fdistR_self_zero δ h0 hnn Fr
      have hA2 : fdistR δ fx.reverse fx.reverse = Cost.fin 0 :=
        fdistR_self_zero δ h0 hnn fx.reverse
      have happrox : Cost.approx
          (fdistR δ Fr Fr +
            (fdistR δ fx.reverse fx.reverse + δ (some (i, x)) (some (i, x))))
          (fdistR δ (RTree.node (i, x) fx :: Fr) (RTree.node (i, x) fx :: Fr)) := by
        rw [hd, hA1, hA2, h0, Cost.fin_add_fin, Cost.fin_add_fin, add_zero, add_zero]
        exact ⟨by norm_num [_BACKTRACE_TOL], by norm_num [_BACKTRACE_TOL]⟩
      obtain ⟨a1, h1ok, h1id, h1cov⟩ := ih fx.reverse (by rw [sizeF_reverse]; omega)
      obtain ⟨a2, h2ok, h2id, h2cov⟩ := ih Fr (by omega)
      refine ⟨(some i, some i) :: (a1 ++ a2), ?_, ?_, ?_⟩
      · rw [btrR, chooseOpt, if_pos happrox, h1ok, h2ok]
      · intro pr hpr
        rcases List.mem_cons.mp hpr with hpr | hpr
        · exact ⟨i, hpr⟩
        · rcases List.mem_append.mp hpr with hpr | hpr
          · exact h1id pr hpr
          · exact h2id pr hpr
      · intro q hq
        rw [labelsF] at hq
        rcases List.mem_cons.mp hq with hq | hq
        · subst hq
          exact List.mem_cons_self _ _
        · rcases List.mem_append.mp hq with hq | hq
          · exact List.mem_cons_of_mem _
              (List.mem_append.mpr (Or.inl (h1cov q ((mem_labelsF_reverse fx).mpr hq))))
          · exact List.mem_cons_of_mem _ (List.mem_append.mpr (Or.inr (h2cov q hq)))

theorem labelsF_length {L : Type} :
    ∀ (F : Forest L), (labelsF F).length = sizeF F := by
  suffices H : ∀ (n : ℕ) (F : Forest L), sizeF F ≤ n →
      (labelsF F).length = sizeF F from fun F => H (sizeF F) F le_rfl
  intro n
  induction n with
  | zero =>
    intro F h
    have hF : F = [] := (sizeF_eq_zero_iff F).mp (by omega)
    subst hF
    simp [labelsF, sizeF]
  | succ n ih =>
    intro F h
    rcases F with _ | ⟨⟨x, cs⟩, rest⟩
    · simp [labelsF, sizeF]
    · simp only [sizeF] at h
      rw [labelsF, sizeF]
      simp only [List.length_cons, List.length_append]
      rw [ih cs (by omega), ih rest (by omega)]
      omega

theorem numberFrom_append {L : Type} :
    ∀ (A B : List L) (n : ℕ),
      numberFrom n (A ++ B) = numberFrom n A ++ numberFrom (n + A.length) B := by
  intro A
  induction A with
  | nil => intro B n; simp [numberFrom]
  | cons x xs ih =>
    intro B n
    rw [List.cons_append, numberFrom, numberFrom, ih]
    simp only [List.length_cons, List.cons_append]
    have h : n + 1 + xs.length = n + (xs.length + 1) := by omega
    rw [h]

theorem mem_numberFrom {L : Type} {p : ℕ × L} :
    ∀ (l : List L) (n : ℕ), p ∈ numberFrom n l ↔
      ∃ k, k < l.length ∧ p.1 = n + k ∧ l[k]? = some p.2 := by
  intro l
  induction l with
  | nil => intro n; simp [numberFrom]
  | cons x xs ih =>
    intro n
    rw [numberFrom]
    simp only [List.mem_cons, ih (n+1)]
    constructor
    · rintro (h | ⟨k, hk, h1, h2⟩)
      · exact ⟨0, by simp, by simp [h], by simp [h]⟩
      · exact ⟨k + 1, by simpa using hk, by omega, by simpa using h2⟩
    · rintro ⟨k, hk, h1, h2⟩
      rcases k with _ | k
      · left
        rcases p with ⟨p1, p2⟩
        simp only [List.getElem?_cons_zero, Option.some.injEq] at h2
        have hp1 : p1 = n := by simpa using h1
        simp only [Prod.mk.injEq]
        exact ⟨hp1, h2.symm⟩
      · right
        exact ⟨k, by simpa using hk, by omega, by simpa using h2⟩

theorem labelsF_idxF {L : Type} :
    ∀ (F : Forest L) (n : ℕ), labelsF (idxF n F) = numberFrom n (labelsF F) := by
  suffices H : ∀ (n0 : ℕ) (F : Forest L), sizeF F ≤ n0 → ∀ n,
      labelsF (idxF n F) = numberFrom n (labelsF F) from
    fun F n => H (sizeF F) F le_rfl n
  intro n0
  induction n0 with
  | zero =>
    intro F h n
    have hF : F = [] := (sizeF_eq_zero_iff F).mp (by omega)
    subst hF
    rw [idxF, labelsF, labelsF, numberFrom]
  | succ n0 ih =>
    intro F h n
    rcases F with _ | ⟨⟨x, cs⟩, rest⟩
    · rw [idxF, labelsF, labelsF, numberFrom]
    · simp only [sizeF] at h
      rw [idxF, labelsF, labelsF, numberFrom, numberFrom_append,
        ih cs (by omega), ih rest (by omega), labelsF_length]
      have he : n + (1 + sizeF cs) = n + 1 + sizeF cs := by omega
      rw [he]

/-- Claim C2: under the default unit cost function the tree edit distance
between `a(b(c,d), e)` (nodes `[a,b,c,d,e]`, adjacency `[[1,4],[2,3],[],[],[]]`)
and `a(c(d))` (nodes `[a,c,d]`, adjacency `[[1],[2],[]]`) is exactly 3, and the
co-optimal alignment produced by the backtrace matches `a` with `a` (0 with 0),
relabels `b` to `c` (1 with 1), matches `d` with `d` (3 with 2), and deletes
`c` (2) and `e` (4). -/
theorem ted_standard_example :
    ted unitCost X2 Y2 = Cost.fin 3 ∧
    tedBacktrace unitCost X2 Y2 =
      Except.ok [(some 0, some 0), (some 4, none), (some 1, some 1),
        (some 3, some 2), (some 2, none)] := by
  constructor
  · set_option maxRecDepth 8000 in
    norm_num +decide [ted, X2, Y2, build, buildT, fdistR, labelsF, sizeF,
      Cost.sum, Cost.add, unitCost, _BACKTRACE_TOL]
  · set_option maxRecDepth 8000 in
    norm_num +decide [tedBacktrace, X2, Y2, build, buildT, idxF, liftCost, btrR,
      chooseOpt, fdistR, labelsF, sizeF, Cost.sum, Cost.add, unitCost,
      Cost.approx, _BACKTRACE_TOL, Except.map]

/-- Claim C7: inserting a new node labelled `d` as first child of node 0 of
`a(b,c)` (nodes `[a,b,c]`, adjacency `[[1,2],[],[]]`), adopting one existing
child, yields `a(d(b), c)`: the adopted contiguous run of existing siblings
becomes the new node's children. -/
theorem insertion_example :
    (TreeEdit.insertion 0 0 'd' 1).apply ['a','b','c'] [[1,2],[],[]] =
      (['a','d','b','c'], [[1,3],[2],[],[]]) := by
  norm_num +decide [TreeEdit.apply, build, buildT, insF, sizeF, toLists,
    labelsF, adjF, childIdxs]

/-- Claim C8: deleting node 1 of `a(d(b), c)` (nodes `[a,d,b,c]`, adjacency
`[[1,3],[2],[],[]]`) yields `a(b, c)`: the deleted node's children are
reattached at its position under its parent, preserving sibling order. -/
theorem deletion_example :
    (TreeEdit.deletion 1).apply ['a','d','b','c'] [[1,3],[2],[],[]] =
      (['a','b','c'], [[1,2],[],[]]) := by
  norm_num +decide [TreeEdit.apply, build, buildT, delF, sizeF, toLists,
    labelsF, adjF, childIdxs]

/-! ### finiteness lemmas -/

theorem Cost.add_ne_inf {a b : Cost} (ha : a ≠ Cost.inf) (hb : b ≠ Cost.inf) :
    a + b ≠ Cost.inf := by
  cases a with
  | inf => exact absurd rfl ha
  | fin qa =>
    cases b with
    | inf => exact absurd rfl hb
    | fin qb => rw [Cost.fin_add_fin]; simp

theorem Cost.ne_inf_of_add {a b : Cost} (h : a + b ≠ Cost.inf) :
    a ≠ Cost.inf ∧ b ≠ Cost.inf := by
  cases a with
  | inf => exact absurd (Cost.inf_add b) h
  | fin qa =>
    cases b with
    | inf => exact absurd (Cost.fin_add_inf qa) h
    | fin qb => exact ⟨by simp, by simp⟩

theorem Cost.minc_ne_inf_left {a : Cost} (b : Cost) (ha : a ≠ Cost.inf) :
    a.minc b ≠ Cost.inf := by
  cases a with
  | inf => exact absurd rfl ha
  | fin qa =>
    cases b with
    | inf => rw [Cost.minc_fin_inf]; simp
    | fin qb => rw [Cost.minc_fin_fin]; split <;> simp

theorem Cost.sum_ne_inf {l : List Cost} (h : ∀ c ∈ l, c ≠ Cost.inf) :
    Cost.sum l ≠ Cost.inf := by
  induction l with
  | nil => simp [Cost.sum]
  | cons c r ih =>
    exact Cost.add_ne_inf (h c (List.mem_cons_self c r))
      (ih (fun d hd => h d (List.mem_cons_of_mem c hd)))

theorem Cost.ne_inf_of_approx {c d : Cost} (h : Cost.approx c d)
    (hd : d ≠ Cost.inf) : c ≠ Cost.inf := by
  cases c with
  | inf =>
    cases d with
    | inf => exact absurd rfl hd
    | fin q => exact h.elim
  | fin q => simp

theorem fdistR_ne_inf {L : Type} (δ : CostFn L)
    (hdel : ∀ a, δ (some a) none ≠ Cost.inf)
    (hins : ∀ b, δ none (some b) ≠ Cost.inf) :
    ∀ F G, fdistR δ F G ≠ Cost.inf := by
  suffices H : ∀ (n : ℕ) (F G : Forest L), sizeF F + sizeF G ≤ n →
      fdistR δ F G ≠ Cost.inf from
    fun F G => H (sizeF F + sizeF G) F G le_rfl
  intro n
  induction n with
  | zero =>
    intro F G h
    have hF : F = [] := (sizeF_eq_zero_iff F).mp (by omega)
    have hG : G = [] := (sizeF_eq_zero_iff G).mp (by omega)
    subst hF hG
    rw [fdistR_nil_nil]
    simp
  | succ n ih =>
    intro F G h
    rcases F with _ | ⟨⟨x, fx⟩, Fr⟩
    · rw [fdistR]
      refine Cost.sum_ne_inf ?_
      intro c hc
      obtain ⟨a, _, rfl⟩ := List.mem_map.mp hc
      exact hins a
    · rcases G with _ | ⟨⟨y, gy⟩, Gr⟩
      · rw [fdistR]
        refine Cost.sum_ne_inf ?_
        intro c hc
        obtain ⟨a, _, rfl⟩ := List.mem_map.mp hc
        exact hdel a
      · rw [fdistR]
        simp only [sizeF] at h
        refine Cost.minc_ne_inf_left _ (Cost.minc_ne_inf_left _ ?_)
        refine Cost.add_ne_inf (ih _ _ ?_) (hdel x)
        simp [sizeF, sizeF_append, sizeF_reverse]
        omega

/-! ### the backtrace never aligns a pair with infinite cost -/

theorem btrR_ok_align_pairs {L : Type} (δ : CostFn (ℕ × L))
    (hdel : ∀ a, δ (some a) none ≠ Cost.inf)
    (hins : ∀ b, δ none (some b) ≠ Cost.inf) :
    ∀ (F G : Forest (ℕ × L)) (al : List (Option ℕ × Option ℕ)),
      btrR δ F G = .ok al →
      ∀ i j : ℕ, (some i, some j) ∈ al →
        ∃ px ∈ labelsF F, ∃ py ∈ labelsF G,
          px.1 = i ∧ py.1 = j ∧ δ (some px) (some py) ≠ Cost.inf := by
  suffices H : ∀ (n : ℕ) (F G : Forest (ℕ × L)) (al : List (Option ℕ × Option ℕ)),
      sizeF F + sizeF G ≤ n → btrR δ F G = .ok al →
      ∀ i j : ℕ, (some i, some j) ∈ al →
        ∃ px ∈ labelsF F, ∃ py ∈ labelsF G,
          px.1 = i ∧ py.1 = j ∧ δ (some px) (some py) ≠ Cost.inf from
    fun F G al => H (sizeF F + sizeF G) F G al le_rfl
  intro n
  induction n with
  | zero =>
    intro F G al h hok i j hmem
    have hF : F = [] := (sizeF_eq_zero_iff F).mp (by omega)
    have hG : G = [] := (sizeF_eq_zero_iff G).mp (by omega)
    subst hF hG
    rw [btrR, labelsF] at hok
    simp only [List.map_nil, Except.ok.injEq] at hok
    subst hok
    exact absurd hmem (by simp)
  | succ n ih =>
    intro F G al h hok i j hmem
    rcases F with _ | ⟨⟨⟨ix, x⟩, fx⟩, Fr⟩
    · rw [btrR] at hok
      simp only [Except.ok.injEq] at hok
      subst hok
      obtain ⟨p, _, hp⟩ := List.mem_map.mp hmem
      exact absurd (congrArg Prod.fst hp) (by simp)
    · rcases G with _ | ⟨⟨⟨jy, y⟩, gy⟩, Gr⟩
      · rw [btrR] at hok
        simp only [Except.ok.injEq] at hok
        subst hok
        obtain ⟨p, _, hp⟩ := List.mem_map.mp hmem
        exact absurd (congrArg Prod.snd hp) (by simp)
      · simp only [sizeF] at h
        rw [btrR] at hok
        rcases hch : chooseOpt
            (fdistR δ Fr Gr +
              (fdistR δ fx.reverse gy.reverse + δ (some (ix, x)) (some (jy, y))))
            (fdistR δ (fx.reverse ++ Fr) (RTree.node (jy, y) gy :: Gr) +
              δ (some (ix, x)) none)
            (fdistR δ (RTree.node (ix, x) fx :: Fr) (gy.reverse ++ Gr) +
              δ none (some (jy, y)))
            (fdistR δ (RTree.node (ix, x) fx :: Fr) (RTree.node (jy, y) gy :: Gr))
          with _ | opt
        · rw [hch] at hok
          exact absurd hok (by simp)
        · rw [hch] at hok
          rcases opt with _ | _ | _
          · -- align roots
            have happrox : Cost.approx
                (fdistR δ Fr Gr +
                  (fdistR δ fx.reverse gy.reverse + δ (some (ix, x)) (some (jy, y))))
                (fdistR δ (RTree.node (ix, x) fx :: Fr)
                  (RTree.node (jy, y) gy :: Gr)) := by
              rw [chooseOpt] at hch
              by_cases h1 : Cost.approx
                  (fdistR δ Fr Gr +
                    (fdistR δ fx.reverse gy.reverse + δ (some (ix, x)) (some (jy, y))))
                  (fdistR δ (RTree.node (ix, x) fx :: Fr)
                    (RTree.node (jy, y) gy :: Gr))
              · exact h1
              · rw [if_neg h1] at hch
                split_ifs at hch <;> simp_all
            have hdne : fdistR δ (RTree.node (ix, x) fx :: Fr)
                (RTree.node (jy, y) gy :: Gr) ≠ Cost.inf :=
              fdistR_ne_inf δ hdel hins _ _
            have hcane := Cost.ne_inf_of_approx happrox hdne
            have hpair : δ (some (ix, x)) (some (jy, y)) ≠ Cost.inf :=
              ((Cost.ne_inf_of_add ((Cost.ne_inf_of_add hcane).2)).2)
            rcases h1 : btrR δ fx.reverse gy.reverse with e1 | a1
            · rw [h1] at hok
              exact absurd hok (by simp)
            · rcases h2 : btrR δ Fr Gr with e2 | a2
              · rw [h1, h2] at hok
                exact absurd hok (by simp)
              · rw [h1, h2] at hok
                simp only [Except.ok.injEq] at hok
                subst hok
                rcases List.mem_cons.mp hmem with hp | hp
                · have hij : ix = i ∧ jy = j := by
                    constructor
                    · exact (Option.some.inj (congrArg Prod.fst hp)).symm
                    · exact (Option.some.inj (congrArg Prod.snd hp)).symm
                  refine ⟨(ix, x), ?_, (jy, y), ?_, by simp [hij.1], by simp [hij.2], hpair⟩
                  · rw [labelsF]; exact List.mem_cons_self _ _
                  · rw [labelsF]; exact List.mem_cons_self _ _
                · rcases List.mem_append.mp hp with hp | hp
                  · obtain ⟨px, hpx, py, hpy, hi, hj, hne⟩ :=
                      ih fx.reverse gy.reverse a1
                        (by simp [sizeF_reverse]; omega) h1 i j hp
                    refine ⟨px, ?_, py, ?_, hi, hj, hne⟩
                    · rw [labelsF]
                      exact List.mem_cons_of_mem _
                        (List.mem_append.mpr (Or.inl ((mem_labelsF_reverse fx).mp hpx)))
                    · rw [labelsF]
                      exact List.mem_cons_of_mem _
                        (List.mem_append.mpr (Or.inl ((mem_labelsF_reverse gy).mp hpy)))
                  · obtain ⟨px, hpx, py, hpy, hi, hj, hne⟩ :=
                      ih Fr Gr a2 (by omega) h2 i j hp
                    refine ⟨px, ?_, py, ?_, hi, hj, hne⟩
                    · rw [labelsF]
                      exact List.mem_cons_of_mem _ (List.mem_append.mpr (Or.inr hpx))
                    · rw [labelsF]
                      exact List.mem_cons_of_mem _ (List.mem_append.mpr (Or.inr hpy))
          · -- delete root
            rcases h1 : btrR δ (fx.reverse ++ Fr) (RTree.node (jy, y) gy :: Gr)
              with e1 | a1
            · rw [h1] at hok
              exact absurd hok (by simp [Except.map])
            · rw [h1] at hok
              simp only [Except.map, Except.ok.injEq] at hok
              subst hok
              rcases List.mem_cons.mp hmem with hp | hp
              · exact absurd (congrArg Prod.snd hp) (by simp)
              · obtain ⟨px, hpx, py, hpy, hi, hj, hne⟩ :=
                  ih (fx.reverse ++ Fr) (RTree.node (jy, y) gy :: Gr) a1
                    (by simp [sizeF, sizeF_append, sizeF_reverse]; omega) h1 i j hp
                refine ⟨px, ?_, py, hpy, hi, hj, hne⟩
                rcases (mem_labelsF_append fx.reverse Fr).mp hpx with hpx | hpx
                · rw [labelsF]
                  exact List.mem_cons_of_mem _
                    (List.mem_append.mpr (Or.inl ((mem_labelsF_reverse fx).mp hpx)))
                · rw [labelsF]
                  exact List.mem_cons_of_mem _ (List.mem_append.mpr (Or.inr hpx))
          · -- insert root
            rcases h1 : btrR δ (RTree.node (ix, x) fx :: Fr) (gy.reverse ++ Gr)
              with e1 | a1
            · rw [h1] at hok
              exact absurd hok (by simp [Except.map])
            · rw [h1] at hok
              simp only [Except.map, Except.ok.injEq] at hok
              subst hok
              rcases List.mem_cons.mp hmem with hp | hp
              · exact absurd (congrArg Prod.fst hp) (by simp)
              · obtain ⟨px, hpx, py, hpy, hi, hj, hne⟩ :=
                  ih (RTree.node (ix, x) fx :: Fr) (gy.reverse ++ Gr) a1
                    (by simp [sizeF, sizeF_append, sizeF_reverse]; omega) h1 i j hp
                refine ⟨px, hpx, py, ?_, hi, hj, hne⟩
                rcases (mem_labelsF_append gy.reverse Gr).mp hpy with hpy | hpy
                · rw [labelsF]
                  exact List.mem_cons_of_mem _
                    (List.mem_append.mpr (Or.inl ((mem_labelsF_reverse gy).mp hpy)))
                · rw [labelsF]
                  exact List.mem_cons_of_mem _ (List.mem_append.mpr (Or.inr hpy))

/-- Claim C6: for every tree `T`, the distance from `T` to itself under the
unit cost is 0, and the backtrace returns an alignment that pairs every node
index of `T` with itself (and nothing else), each such pair having pairwise
cost 0. -/
theorem ted_self_identity {L : Type} [DecidableEq L] (t : RTree L) :
    ted unitCost t t = Cost.fin 0 ∧
    ∃ al : List (Option ℕ × Option ℕ), tedBacktrace unitCost t t = Except.ok al ∧
      (∀ pr ∈ al, ∃ k, pr = (some k, some k)) ∧
      (∀ k, k < sizeF [t] → (some k, some k) ∈ al) ∧
      (∀ (k : ℕ) (a : L), (labelsF [t])[k]? = some a →
        unitCost (some a) (some a) = Cost.fin 0) := by
  have h0 : ∀ a : L, unitCost (some a) (some a) = Cost.fin 0 := fun a => by
    simp [unitCost]
  have hnn : ∀ a b : Option L, Cost.Nonneg (unitCost a b) := by
    intro a b
    unfold unitCost
    split
    · exact le_refl 0
    · show (0 : ℚ) ≤ 1
      norm_num
  constructor
  · exact fdistR_self_zero unitCost h0 hnn [t]
  · have h0l : ∀ p : ℕ × L, liftCost unitCost (some p) (some p) = Cost.fin 0 :=
      fun p => by simp [liftCost, unitCost]
    have hnnl : ∀ a b, Cost.Nonneg (liftCost unitCost a b) := fun a b => hnn _ _
    obtain ⟨al, hok, hid, hcov⟩ := btrR_self_id (liftCost unitCost) h0l hnnl (idxF 0 [t])
    refine ⟨al, hok, hid, ?_, ?_⟩
    · intro k hk
      have hlen : k < (labelsF [t]).length := by rw [labelsF_length]; exact hk
      obtain ⟨a, ha⟩ : ∃ a, (labelsF [t])[k]? = some a :=
        ⟨_, List.getElem?_eq_getElem hlen⟩
      have hmem : ((k, a) : ℕ × L) ∈ numberFrom 0 (labelsF [t]) := by
        rw [mem_numberFrom]
        exact ⟨k, hlen, by simp, by simpa using ha⟩
      have hmem2 : ((k, a) : ℕ × L) ∈ labelsF (idxF 0 [t]) := by
        rw [labelsF_idxF]
        exact hmem
      simpa using hcov (k, a) hmem2
    · intro k a ha
      simp [unitCost]

/-- Witness for C6 at the single-node tree `a`. -/
theorem ted_self_identity_witness :
    ted unitCost (RTree.node 'a' []) (RTree.node 'a' []) = Cost.fin 0 ∧
    ∃ al : List (Option ℕ × Option ℕ),
      tedBacktrace unitCost (RTree.node 'a' []) (RTree.node 'a' []) =
        Except.ok al ∧ (some 0, some 0) ∈ al := by
  obtain ⟨h1, al, hok, hid, hcov, hc⟩ := ted_self_identity (RTree.node 'a' [])
  exact ⟨h1, al, hok, hcov 0 (by simp [sizeF])⟩

/-- Claim C5: when the cost function returns infinity for a pair of labels,
the engine never aligns the corresponding nodes, while deletion and
insertion remain available; hence when all deletion and insertion costs are
finite the distance is finite.  Concretely, for the expression trees
`+(3, *(5,2))` and `*(2, *(2,3))` with the operator-forbidding cost
function, the distance is the finite `49/15 ≈ 3.26667` and the co-optimal
alignment deletes `+` (pair `(0, absent)`) and inserts `*`
(pair `(absent, 0)`) while aligning the two inner `*` nodes. -/
theorem infinite_cost_never_aligned :
    (∀ (L : Type) (δ : CostFn L) (X Y : RTree L),
        (∀ a, δ (some a) none ≠ Cost.inf) → (∀ b, δ none (some b) ≠ Cost.inf) →
        ted δ X Y ≠ Cost.inf) ∧
    (∀ (L : Type) (δ : CostFn L) (X Y : RTree L)
        (al : List (Option ℕ × Option ℕ)),
        (∀ a, δ (some a) none ≠ Cost.inf) → (∀ b, δ none (some b) ≠ Cost.inf) →
        tedBacktrace δ X Y = Except.ok al →
        ∀ (i j : ℕ) (a b : L), (some i, some j) ∈ al →
          (labelsF [X])[i]? = some a → (labelsF [Y])[j]? = some b →
          δ (some a) (some b) ≠ Cost.inf) ∧
    ted exprDelta X5 Y5 = Cost.fin (49/15) ∧
    (∃ al : List (Option ℕ × Option ℕ),
      tedBacktrace exprDelta X5 Y5 = Except.ok al ∧
      (some 0, none) ∈ al ∧ (none, some 0) ∈ al ∧ (some 2, some 2) ∈ al) := by
  refine ⟨?_, ?_, ?_, ?_⟩
  · intro L δ X Y hdel hins
    exact fdistR_ne_inf δ hdel hins [X] [Y]
  · intro L δ X Y al hdel hins hok i j a b hmem hga hgb
    simp only [tedBacktrace] at hok
    have hdel2 : ∀ p : ℕ × L, liftCost δ (some p) none ≠ Cost.inf :=
      fun p => hdel p.2
    have hins2 : ∀ p : ℕ × L, liftCost δ none (some p) ≠ Cost.inf :=
      fun p => hins p.2
    obtain ⟨px, hpx, py, hpy, hi, hj, hne⟩ :=
      btrR_ok_align_pairs (liftCost δ) hdel2 hins2
        (idxF 0 [X]) (idxF 0 [Y]) al hok i j hmem
    rw [labelsF_idxF, mem_numberFrom] at hpx hpy
    obtain ⟨k, hk, hik, hgk⟩ := hpx
    obtain ⟨k2, hk2, hjk, hgk2⟩ := hpy
    have hki : k = i := by omega
    have hkj : k2 = j := by omega
    subst hki hkj
    have ha2 : px.2 = a := by
      rw [hga] at hgk
      exact (Option.some.inj hgk).symm
    have hb2 : py.2 = b := by
      rw [hgb] at hgk2
      exact (Option.some.inj hgk2).symm
    have hfin : δ (some px.2) (some py.2) ≠ Cost.inf := hne
    rw [ha2, hb2] at hfin
    exact hfin
  · show fdistR exprDelta [X5] [Y5] = Cost.fin (49/15)
    norm_num +decide [X5, Y5, build, buildT, fdistR, labelsF, sizeF, Cost.sum,
      Cost.add, exprDelta, _BACKTRACE_TOL]
  · refine ⟨[(some 0, none), (none, some 0), (some 2, some 2), (some 4, some 4),
      (some 3, some 3), (some 1, some 1)], ?_, by simp, by simp, by simp⟩
    norm_num +decide [tedBacktrace, X5, Y5, build, buildT, idxF, liftCost, btrR,
      chooseOpt, fdistR, labelsF, sizeF, Cost.sum, Cost.add, exprDelta,
      Cost.approx, _BACKTRACE_TOL, Except.map]

/-- Witness for C5: the general parts applied to the concrete expression
trees and cost function. -/
theorem infinite_cost_never_aligned_witness :
    ted exprDelta X5 Y5 ≠ Cost.inf ∧
    exprDelta (some (Lbl.sym '*')) (some (Lbl.sym '*')) ≠ Cost.inf := by
  constructor
  · exact infinite_cost_never_aligned.1 Lbl exprDelta X5 Y5
      (fun a => by simp [exprDelta]) (fun b => by simp [exprDelta])
  · obtain ⟨al, hok, hm1, hm2, hm3⟩ := infinite_cost_never_aligned.2.2.2
    refine infinite_cost_never_aligned.2.1 Lbl exprDelta X5 Y5 al
      (fun a => by simp [exprDelta]) (fun b => by simp [exprDelta]) hok 2 2
      (Lbl.sym '*') (Lbl.sym '*') hm3 ?_ ?_
    · norm_num +decide [X5, build, buildT, labelsF]
    · norm_num +decide [Y5, build, buildT, labelsF]


/-- Claim C3: the TED backtrace is deterministic.  Two floating costs are
treated as equal exactly when their absolute difference is below the fixed
tolerance `_BACKTRACE_TOL = 1e-5`, and at each DP cell the option chooser
(through which `btrR` selects its step) picks the first co-optimal option in
the fixed preference order: align roots, then delete the source root, then
insert the target root; finally, the backtrace is a pure function, so two
runs on identical input return the identical alignment. -/
theorem backtrace_deterministic_tie_break :
    (∀ a b : ℚ, Cost.approx (Cost.fin a) (Cost.fin b) ↔ |a - b| < _BACKTRACE_TOL) ∧
    _BACKTRACE_TOL = 1/100000 ∧
    (∀ cA cD cI d : Cost,
      (Cost.approx cA d → chooseOpt cA cD cI d = some BtOption.alignRoots) ∧
      (¬ Cost.approx cA d → Cost.approx cD d →
        chooseOpt cA cD cI d = some BtOption.delRoot) ∧
      (¬ Cost.approx cA d → ¬ Cost.approx cD d → Cost.approx cI d →
        chooseOpt cA cD cI d = some BtOption.insRoot) ∧
      (¬ Cost.approx cA d → ¬ Cost.approx cD d → ¬ Cost.approx cI d →
        chooseOpt cA cD cI d = none)) ∧
    (∀ (L : Type) (δ : CostFn L) (X Y : RTree L),
      tedBacktrace δ X Y = tedBacktrace δ X Y) := by
  refine ⟨?_, rfl, ?_, fun L δ X Y => rfl⟩
  · intro a b
    exact abs_sub_lt_iff.symm
  · intro cA cD cI d
    refine ⟨fun h1 => ?_, fun h1 h2 => ?_, fun h1 h2 h3 => ?_, fun h1 h2 h3 => ?_⟩
    · rw [chooseOpt, if_pos h1]
    · rw [chooseOpt, if_neg h1, if_pos h2]
    · rw [chooseOpt, if_neg h1, if_neg h2, if_pos h3]
    · rw [chooseOpt, if_neg h1, if_neg h2, if_neg h3]

/-- Witness for C3: concrete choices of the first co-optimal option. -/
theorem backtrace_deterministic_tie_break_witness :
    chooseOpt (Cost.fin 0) (Cost.fin 0) (Cost.fin 0) (Cost.fin 0) =
      some BtOption.alignRoots ∧
    chooseOpt (Cost.fin 1) (Cost.fin 0) (Cost.fin 0) (Cost.fin 0) =
      some BtOption.delRoot := by
  have h := backtrace_deterministic_tie_break.2.2.1
  constructor
  · exact (h (Cost.fin 0) (Cost.fin 0) (Cost.fin 0) (Cost.fin 0)).1
      ⟨by norm_num [_BACKTRACE_TOL], by norm_num [_BACKTRACE_TOL]⟩
  · refine (h (Cost.fin 1) (Cost.fin 0) (Cost.fin 0) (Cost.fin 0)).2.1 ?_
      ⟨by norm_num [_BACKTRACE_TOL], by norm_num [_BACKTRACE_TOL]⟩
    intro hc
    have h1 := hc.1
    norm_num [_BACKTRACE_TOL] at h1

end Edist
